import Mathlib

/-!
Verification development for the fswalk scanner.

The repository has three source files.  src/main.rs is the catalog pipeline:
it opens a SQLite database, starts a write transaction, clears the `new`
column, walks a directory tree upserting one row per regular file, commits,
writes a report (new / modified / deleted queries), and finally deletes the
rows whose `last_seen` differs from the scan's generation timestamp.
batch.rs and nlw.rs are Windows bulk directory enumeration variants; the
parts embedded here are their timestamp handling (FILETIME tick conversion),
the construction of per-entry metadata from raw WIN32 data, and the
enrichment step that merges bulk metadata into walker entries by name.

Machine integers are modelled as Nat / Int with explicit wrap-around where
the Rust code casts; fallible operations (u64 subtraction underflow) are
modelled with Option; the SQLite table is a list of rows, each SQL statement
a function on that list, and the transaction structure of main an explicit
fault-injected runner.
-/

set_option maxHeartbeats 1000000

instance {ε α : Type} [DecidableEq ε] [DecidableEq α] :
    DecidableEq (Except ε α)
  | .ok a, .ok b =>
    if h : a = b then isTrue (by rw [h])
    else isFalse (by intro hh; cases hh; exact h rfl)
  | .ok _, .error _ => isFalse (by intro h; cases h)
  | .error _, .ok _ => isFalse (by intro h; cases h)
  | .error a, .error b =>
    if h : a = b then isTrue (by rw [h])
    else isFalse (by intro hh; cases hh; exact h rfl)

namespace Fswalk

/-- The Datei struct of main.rs: one observation produced by
`process_dir_entry` for an observed file (hash, path, size, created,
modified, plen, flen). -/
structure Datei where
  hash : String
  path : String
  size : Int
  created : Int
  modified : Int
  plen : Int
  flen : Int
deriving DecidableEq

/-- One persistent row of the `files` table created in `create_database`:
the Datei columns plus `timestamp` (the version stamp), `last_seen` and
`new`. -/
structure FileRow where
  hash : String
  path : String
  size : Int
  created : Int
  modified : Int
  plen : Int
  flen : Int
  timestamp : Nat
  last_seen : Nat
  new : Bool
deriving DecidableEq

/-- Primary key of a stored row: PRIMARY KEY (hash, path). -/
def keyOf (r : FileRow) : String × String := (r.hash, r.path)

/-- Primary key carried by an observation. -/
def dKey (d : Datei) : String × String := (d.hash, d.path)

/-- Does a stored row carry the given primary key? -/
def matchesKey (h p : String) (r : FileRow) : Bool :=
  decide (r.hash = h ∧ r.path = p)

/-- The ON CONFLICT(hash, path) match of the upsert statement. -/
def rowMatches (d : Datei) (r : FileRow) : Bool :=
  matchesKey d.hash d.path r

/-- Select the row with the given primary key; the PRIMARY KEY constraint
keeps at most one, so find? returns it. -/
def findKey (c : List FileRow) (h p : String) : Option FileRow :=
  c.find? (matchesKey h p)

/-- The PRIMARY KEY (hash, path) constraint on the table: no two rows share
a key. -/
def NodupKeys (c : List FileRow) : Prop := (c.map keyOf).Nodup

instance (c : List FileRow) : Decidable (NodupKeys c) :=
  inferInstanceAs (Decidable (List.Nodup _))

/-- `UPDATE files SET new = 0` (main.rs line 273). -/
def resetNewFlags (c : List FileRow) : List FileRow :=
  c.map (fun r => { r with new := false })

/-- The INSERT arm of the upsert (main.rs lines 254-256 and the bound
parameters of lines 289-300): VALUES (hash, path, size, created, modified,
plen, flen, g, g, 1). -/
def insertRow (d : Datei) (g : Nat) : FileRow :=
  { hash := d.hash, path := d.path, size := d.size, created := d.created,
    modified := d.modified, plen := d.plen, flen := d.flen,
    timestamp := g, last_seen := g, new := true }

/-- The DO UPDATE SET arm (main.rs lines 257-270): data columns and
last_seen taken from the excluded row, timestamp bumped to the current
generation exactly when the stored size or stored modified differs from the
observed one, new set to 0. -/
def updateRow (r : FileRow) (d : Datei) (g : Nat) : FileRow :=
  { r with
    size := d.size, created := d.created, modified := d.modified,
    plen := d.plen, flen := d.flen, last_seen := g,
    timestamp := if r.size ≠ d.size ∨ r.modified ≠ d.modified then g
                 else r.timestamp,
    new := false }

/-- `INSERT INTO files ... ON CONFLICT(hash, path) DO UPDATE SET ...`
(main.rs lines 254-271) applied to one observation. -/
def upsert (c : List FileRow) (d : Datei) (g : Nat) : List FileRow :=
  if c.any (rowMatches d) then
    c.map (fun r => if rowMatches d r then updateRow r d g else r)
  else
    c ++ [insertRow d g]

/-- `DELETE FROM files WHERE last_seen <> g` (main.rs line 311): the rows
that remain are those observed in generation g. -/
def sweepDelete (c : List FileRow) (g : Nat) : List FileRow :=
  c.filter (fun r => decide (r.last_seen = g))

/-- `SELECT ... FROM files WHERE new = 1` (main.rs line 152). -/
def queryNew (c : List FileRow) : List FileRow :=
  c.filter (fun r => r.new)

/-- `SELECT ... FROM files WHERE timestamp = g AND new = 0`
(main.rs line 154). -/
def queryModified (c : List FileRow) (g : Nat) : List FileRow :=
  c.filter (fun r => decide (r.timestamp = g ∧ r.new = false))

/-- `SELECT ... FROM files WHERE last_seen <> g` (main.rs line 155). -/
def queryDeleted (c : List FileRow) (g : Nat) : List FileRow :=
  c.filter (fun r => decide (r.last_seen ≠ g))

/-- The result sets `write_to_file` reads from one catalog state. -/
structure Report where
  totalCount : Nat
  newRows : List FileRow
  modifiedRows : List FileRow
  deletedRows : List FileRow
deriving DecidableEq

/-- `write_to_file` (main.rs lines 138-198): the classification queries it
runs, all against the same catalog state (its transaction performs no
writes to the table). -/
def write_to_file (c : List FileRow) (g : Nat) : Report :=
  { totalCount := c.length, newRows := queryNew c,
    modifiedRows := queryModified c g, deletedRows := queryDeleted c g }

/-- The upsert loop of main (lines 280-304) over the stream of
observations. -/
def scanUpserts (c : List FileRow) (os : List Datei) (g : Nat) :
    List FileRow :=
  os.foldl (fun acc d => upsert acc d g) c

/-- The write transaction of main (lines 252-307): the reset of the new
flags followed by every upsert, committed together at line 307. -/
def scanTx (cat : List FileRow) (os : List Datei) (g : Nat) : List FileRow :=
  scanUpserts (resetNewFlags cat) os g

/-- Catalog state after the full pipeline: the committed write transaction,
then the standalone sweep DELETE of line 311. -/
def scanFinal (cat : List FileRow) (os : List Datei) (g : Nat) :
    List FileRow :=
  sweepDelete (scanTx cat os g) g

/-- The report main produces: `write_to_file` runs at line 309, between the
commit of the write transaction (line 307) and the sweep DELETE
(line 311), so its queries read the committed, not yet swept state. -/
def scanReport (cat : List FileRow) (os : List Datei) (g : Nat) : Report :=
  write_to_file (scanTx cat os g) g

/-- A catalog statement of main at which a database error can be injected:
the reset UPDATE or the i-th upsert (both inside the write transaction), or
the sweep DELETE (which executes as its own implicit transaction). -/
inductive FailPoint where
  | atReset : FailPoint
  | atUpsert : Nat → FailPoint
  | atSweep : FailPoint
deriving DecidableEq

/-- Outcome of one run of main: ok (final catalog, report) on success, or
err carrying the catalog state that remains committed after the aborted
run. -/
inductive ScanOutcome where
  | ok : List FileRow → Report → ScanOutcome
  | err : List FileRow → ScanOutcome
deriving DecidableEq

/-- main (lines 247-317) with a fault injected at one catalog statement.
A failure of the reset or of an upsert propagates out of main before
tx.commit, so the open write transaction rolls back and the catalog stays
as it was when the transaction began.  The sweep DELETE of line 311 runs
only after that transaction has committed at line 307, so a sweep failure
leaves the committed post-upsert (unswept) state in place. -/
def runMain (cat : List FileRow) (os : List Datei) (g : Nat) :
    Option FailPoint → ScanOutcome
  | none => .ok (scanFinal cat os g) (scanReport cat os g)
  | some .atReset => .err cat
  | some (.atUpsert _) => .err cat
  | some .atSweep => .err (scanTx cat os g)

/-- The `as i64` cast Rust applies to u64 (and usize) quantities in
`process_dir_entry`: wrap-around reinterpretation of the low 64 bits. -/
def u64_as_i64 (n : Nat) : Int :=
  if n % 18446744073709551616 < 9223372036854775808 then
    ((n % 18446744073709551616 : Nat) : Int)
  else
    ((n % 18446744073709551616 : Nat) : Int) - 18446744073709551616

/-- The std metadata of one walk entry as main.rs consumes it: the file
length, and the created / modified SystemTime values, each of which the OS
may fail to provide.  SystemTime is modelled as whole seconds since the
UNIX epoch (the code calls duration_since(UNIX_EPOCH) followed by
as_secs). -/
structure StdMetadata where
  len : Nat
  created : Except Unit Nat
  modified : Except Unit Nat
deriving DecidableEq

/-- One entry delivered by the jwalk iterator in main.rs: its path, file
name, file-type test, and the result of entry.metadata(). -/
structure WalkEntry where
  pathStr : String
  fileName : String
  isFile : Bool
  metadata : Except Unit StdMetadata
deriving DecidableEq

/-- The body of `process_dir_entry` (main.rs lines 200-245): hash of the
path string, size / created / modified falling back to 0 on any metadata or
timestamp error, and the byte lengths of path and file name.  xxh3 stands
for the xxh3_64 hash function, an arbitrary deterministic function of the
path string. -/
def processDatei (xxh3 : String → Nat) (e : WalkEntry) : Datei :=
  { hash := toString (xxh3 e.pathStr)
    path := e.pathStr
    size := u64_as_i64 (match e.metadata with
      | .ok m => m.len
      | .error _ => 0)
    created := u64_as_i64 (match e.metadata with
      | .ok m => match m.created with
        | .ok t => t
        | .error _ => 0
      | .error _ => 0)
    modified := u64_as_i64 (match e.metadata with
      | .ok m => match m.modified with
        | .ok t => t
        | .error _ => 0
      | .error _ => 0)
    plen := u64_as_i64 e.pathStr.utf8ByteSize
    flen := u64_as_i64 e.fileName.utf8ByteSize }

/-- `process_dir_entry` itself: it has return type Result and ends in
Ok(Datei) on every path through the function. -/
def process_dir_entry (xxh3 : String → Nat) (e : WalkEntry) :
    Except Unit Datei :=
  .ok (processDatei xxh3 e)

/-- The walk loop of main (lines 280-304) as the list of observations it
feeds to the upsert statement: Err items of the walk are ignored, non-file
entries are skipped by the file_type test, and each remaining entry is
processed by process_dir_entry (which never takes its error path). -/
def walkObservations (xxh3 : String → Nat)
    (walk : List (Except Unit WalkEntry)) : List Datei :=
  walk.filterMap (fun item =>
    match item with
    | .error _ => none
    | .ok e =>
      if e.isFile then
        match process_dir_entry xxh3 e with
        | .ok d => some d
        | .error _ => none
      else none)

end Fswalk

namespace Fswalk.Batch

/-- 100-ns ticks per second (batch.rs line 78). -/
def TICKS : Nat := 10000000

/-- Seconds between 1601-01-01 and 1970-01-01 (batch.rs line 79). -/
def DELTA : Nat := 11644473600

/-- The `filetime` conversion of batch.rs (lines 76-83): seconds and
nanoseconds of Duration::new(ticks / TICKS - DELTA, (ticks % TICKS) * 100).
The u64 subtraction is unguarded in the source; its underflow (a panic in a
checked build) is modelled as none. -/
def filetime (ticks : Nat) : Option (Nat × Nat) :=
  if ticks / TICKS < DELTA then none
  else some (ticks / TICKS - DELTA, ticks % TICKS * 100)

/-- The same conversion collapsed to total nanoseconds since the UNIX
epoch, the value of the SystemTime batch.rs builds. -/
def filetimeNanos (ticks : Nat) : Option Nat :=
  (filetime ticks).map (fun sn => sn.1 * 1000000000 + sn.2)

/-- The Meta struct of batch.rs with its SystemTime fields expressed as
nanoseconds since the UNIX epoch. -/
structure Meta where
  size : Nat
  created : Nat
  modified : Nat
  attrs : Nat
deriving DecidableEq

/-- Construction of one Meta from a FILE_ID_EXTD_DIR_INFO record
(batch.rs lines 62-67): both timestamps pass through filetime before they
are stored. -/
def metaOfInfo (size cTicks mTicks attrs : Nat) : Option Meta :=
  match filetimeNanos cTicks, filetimeNanos mTicks with
  | some cr, some mo => some ⟨size, cr, mo, attrs⟩
  | _, _ => none

end Fswalk.Batch

namespace Fswalk.Nlw

/-- The BasicInfo struct of nlw.rs (lines 38-46): size plus the two
timestamps, which the source documents and stores as raw FILETIME values
(100-ns ticks since 1601-01-01). -/
structure BasicInfo where
  size : Nat
  created : Nat
  modified : Nat
deriving DecidableEq

/-- BasicInfo::default(), the marker left on entries that the bulk
enumeration produced no data for. -/
def basicInfoDefault : BasicInfo := ⟨0, 0, 0⟩

/-- The dword combination of push_info (nlw.rs lines 98-102):
(high as u64) << 32 | low as u64. -/
def combineDwords (hi lo : Nat) : Nat := (hi <<< 32) ||| lo

/-- The fields of one WIN32_FIND_DATAW record as push_info reads them:
the decoded file name and the six dwords of size, creation time and last
write time. -/
structure FindDataW where
  fileName : String
  sizeHigh : Nat
  sizeLow : Nat
  createdHigh : Nat
  createdLow : Nat
  modifiedHigh : Nat
  modifiedLow : Nat

/-- The BasicInfo push_info builds from one record (nlw.rs lines 98-111):
each field is the plain dword combination, with no epoch conversion. -/
def infoOfFindData (d : FindDataW) : BasicInfo :=
  ⟨combineDwords d.sizeHigh d.sizeLow,
   combineDwords d.createdHigh d.createdLow,
   combineDwords d.modifiedHigh d.modifiedLow⟩

/-- push_info (nlw.rs lines 85-113): empty names and the pseudo-entries
"." and ".." are skipped, every other record is inserted into the map. -/
def pushInfo (map : List (String × BasicInfo)) (d : FindDataW) :
    List (String × BasicInfo) :=
  if d.fileName = "" ∨ d.fileName = "." ∨ d.fileName = ".." then map
  else map ++ [(d.fileName, infoOfFindData d)]

/-- A jwalk entry as walk_with_basic_info's process_read_dir closure sees
it: the file name and the client_state slot, which jwalk initialises with
BasicInfo::default(). -/
structure NlwEntry where
  fileName : String
  isFile : Bool
  clientState : BasicInfo
deriving DecidableEq

/-- map.get(&entry.file_name): name lookup in the bulk-enumeration
result. -/
def lookupName (map : List (String × BasicInfo)) (name : String) :
    Option BasicInfo :=
  (map.find? (fun pr => pr.1 = name)).map (fun pr => pr.2)

/-- The per-child enrichment of walk_with_basic_info (nlw.rs lines
117-131): Err children are left alone, and an Ok child's client_state is
overwritten only when its name has a match in the map. -/
def enrichChild (map : List (String × BasicInfo))
    (child : Except Unit NlwEntry) : Except Unit NlwEntry :=
  match child with
  | .error e => .error e
  | .ok entry =>
    match lookupName map entry.fileName with
    | some info => .ok { entry with clientState := info }
    | none => .ok entry

/-- filetime_to_unix from nlw.rs's test module (lines 139-144): nanoseconds
since the UNIX epoch, with the same unguarded u64 subtraction modelled as
none on underflow.  This conversion lives in the consumer, not in the
enumeration component. -/
def filetime_to_unix (ft : Nat) : Option Nat :=
  if ft < 116444736000000000 then none
  else some ((ft - 116444736000000000) * 100)

end Fswalk.Nlw

namespace Fswalk

theorem matchesKey_iff {h p : String} {r : FileRow} :
    matchesKey h p r = true ↔ r.hash = h ∧ r.path = p := by
  simp [matchesKey]

theorem matchesKey_updateRow (h p : String) (r : FileRow) (d : Datei)
    (g : Nat) : matchesKey h p (updateRow r d g) = matchesKey h p r := by
  simp [matchesKey, updateRow]

theorem findKey_map {h p : String} (f : FileRow → FileRow)
    (hf : ∀ r, matchesKey h p (f r) = matchesKey h p r) (c : List FileRow) :
    findKey (c.map f) h p = (findKey c h p).map f := by
  induction c with
  | nil => rfl
  | cons x t ih =>
    by_cases hx : matchesKey h p x = true
    · rw [List.map_cons]
      rw [findKey, List.find?_cons_of_pos _ (by rw [hf]; exact hx)]
      rw [findKey, List.find?_cons_of_pos _ hx, Option.map_some']
    · rw [List.map_cons]
      rw [findKey, List.find?_cons_of_neg _ (by rw [hf]; exact hx)]
      rw [findKey, List.find?_cons_of_neg _ hx]
      exact ih

theorem findKey_append_right {c : List FileRow} {h p : String}
    (hc : findKey c h p = none) (l : List FileRow) :
    findKey (c ++ l) h p = findKey l h p := by
  have hc' : List.find? (matchesKey h p) c = none := hc
  simp [findKey, List.find?_append, hc']

theorem findKey_append_left {c : List FileRow} {h p : String} {r : FileRow}
    (hc : findKey c h p = some r) (l : List FileRow) :
    findKey (c ++ l) h p = some r := by
  have hc' : List.find? (matchesKey h p) c = some r := hc
  simp [findKey, List.find?_append, hc']

theorem any_iff_findKey {c : List FileRow} {d : Datei} :
    c.any (rowMatches d) = true ↔ findKey c d.hash d.path ≠ none := by
  rw [← Option.isSome_iff_ne_none]
  rw [show findKey c d.hash d.path = List.find? (rowMatches d) c from rfl]
  rw [List.find?_isSome, List.any_eq_true]

theorem upsert_find_self (c : List FileRow) (d : Datei) (g : Nat) :
    findKey (upsert c d g) d.hash d.path =
      some (match findKey c d.hash d.path with
            | none => insertRow d g
            | some r => updateRow r d g) := by
  have hf : ∀ r, matchesKey d.hash d.path
      (if rowMatches d r then updateRow r d g else r) =
      matchesKey d.hash d.path r := by
    intro r
    by_cases hr : rowMatches d r
    · rw [if_pos hr, matchesKey_updateRow]
    · rw [if_neg hr]
  unfold upsert
  by_cases hany : c.any (rowMatches d) = true
  · rw [if_pos hany, findKey_map _ hf]
    obtain ⟨r₁, hr₁⟩ := Option.ne_none_iff_exists'.mp (any_iff_findKey.mp hany)
    rw [hr₁, Option.map_some']
    have hm : rowMatches d r₁ = true := by
      have hr₁' : List.find? (matchesKey d.hash d.path) c = some r₁ := hr₁
      exact List.find?_some hr₁'
    rw [if_pos hm]
  · rw [if_neg hany]
    have hnone : findKey c d.hash d.path = none := by
      by_contra hne
      exact hany (any_iff_findKey.mpr hne)
    rw [hnone, findKey_append_right hnone]
    simp [findKey, insertRow, matchesKey]

theorem upsert_find_other (c : List FileRow) (d : Datei) (g : Nat)
    {h p : String} (hne : ¬(d.hash = h ∧ d.path = p)) :
    findKey (upsert c d g) h p = findKey c h p := by
  have hf : ∀ r, matchesKey h p
      (if rowMatches d r then updateRow r d g else r) =
      matchesKey h p r := by
    intro r
    by_cases hr : rowMatches d r
    · rw [if_pos hr, matchesKey_updateRow]
    · rw [if_neg hr]
  unfold upsert
  by_cases hany : c.any (rowMatches d) = true
  · rw [if_pos hany, findKey_map _ hf]
    cases hfind : findKey c h p with
    | none => rfl
    | some r₁ =>
      rw [Option.map_some']
      have h₁ : matchesKey h p r₁ = true := by
        have hfind' : List.find? (matchesKey h p) c = some r₁ := hfind
        exact List.find?_some hfind'
      obtain ⟨e1, e2⟩ := matchesKey_iff.mp h₁
      have hb : ¬ (rowMatches d r₁ = true) := by
        simp only [rowMatches, matchesKey, decide_eq_true_eq]
        intro hh
        exact hne ⟨by rw [← hh.1, e1], by rw [← hh.2, e2]⟩
      rw [if_neg hb]
  · rw [if_neg hany]
    cases hfind : findKey c h p with
    | some r₁ => exact findKey_append_left hfind _
    | none =>
      rw [findKey_append_right hfind]
      have hmk : matchesKey h p (insertRow d g) = false := decide_eq_false hne
      rw [findKey, List.find?_cons_of_neg _ (by simp [hmk])]
      rfl

end Fswalk

namespace Fswalk

theorem keyOf_updateRow (r : FileRow) (d : Datei) (g : Nat) :
    keyOf (updateRow r d g) = keyOf r := rfl

theorem NodupKeys_resetNewFlags {c : List FileRow} (hc : NodupKeys c) :
    NodupKeys (resetNewFlags c) := by
  unfold NodupKeys resetNewFlags at *
  rw [List.map_map]
  exact hc

theorem NodupKeys_upsert (d : Datei) (g : Nat) {c : List FileRow}
    (hc : NodupKeys c) : NodupKeys (upsert c d g) := by
  unfold upsert
  by_cases hany : c.any (rowMatches d) = true
  · rw [if_pos hany]
    unfold NodupKeys at *
    rw [List.map_map]
    have hmaps : c.map (keyOf ∘ fun r =>
        if rowMatches d r then updateRow r d g else r) = c.map keyOf := by
      apply List.map_congr_left
      intro r _
      by_cases hr : rowMatches d r
      · simp [Function.comp, hr, keyOf_updateRow]
      · simp [Function.comp, hr]
    rw [hmaps]
    exact hc
  · rw [if_neg hany]
    unfold NodupKeys at *
    rw [List.map_append, List.nodup_append]
    refine ⟨hc, List.nodup_singleton _, ?_⟩
    intro a ha hb
    obtain ⟨r, hrc, hra⟩ := List.mem_map.mp ha
    have hbe : a = keyOf (insertRow d g) := by simpa using hb
    apply hany
    rw [List.any_eq_true]
    refine ⟨r, hrc, ?_⟩
    have hk : keyOf r = (d.hash, d.path) := by rw [hra, hbe]; rfl
    obtain ⟨e1, e2⟩ := Prod.ext_iff.mp hk
    exact decide_eq_true ⟨e1, e2⟩

theorem NodupKeys_scanUpserts {c : List FileRow} {os : List Datei} {g : Nat}
    (hc : NodupKeys c) : NodupKeys (scanUpserts c os g) := by
  induction os generalizing c with
  | nil => exact hc
  | cons d os ih => exact ih (NodupKeys_upsert d g hc)

theorem NodupKeys_scanTx {cat : List FileRow} {os : List Datei} {g : Nat}
    (hc : NodupKeys cat) : NodupKeys (scanTx cat os g) :=
  NodupKeys_scanUpserts (NodupKeys_resetNewFlags hc)

theorem NodupKeys_sweepDelete {c : List FileRow} (g : Nat)
    (hc : NodupKeys c) : NodupKeys (sweepDelete c g) :=
  List.Nodup.sublist (List.Sublist.map keyOf (List.filter_sublist c)) hc

theorem findKey_of_mem {c : List FileRow} {r : FileRow} (hc : NodupKeys c)
    (hr : r ∈ c) : findKey c r.hash r.path = some r := by
  induction c with
  | nil => cases hr
  | cons x t ih =>
    have hc' : NodupKeys t ∧ keyOf x ∉ t.map keyOf := by
      unfold NodupKeys at hc
      rw [List.map_cons, List.nodup_cons] at hc
      exact ⟨hc.2, hc.1⟩
    by_cases hx : matchesKey r.hash r.path x = true
    · rw [findKey, List.find?_cons_of_pos _ hx]
      rcases List.mem_cons.mp hr with rfl | hrt
      · rfl
      · exfalso
        obtain ⟨e1, e2⟩ := matchesKey_iff.mp hx
        apply hc'.2
        rw [show keyOf x = keyOf r from by simp [keyOf, e1, e2]]
        exact List.mem_map.mpr ⟨r, hrt, rfl⟩
    · rw [findKey, List.find?_cons_of_neg _ hx]
      rcases List.mem_cons.mp hr with rfl | hrt
      · exact absurd (decide_eq_true ⟨rfl, rfl⟩) hx
      · exact ih hc'.1 hrt

theorem mem_of_findKey {c : List FileRow} {h p : String} {r : FileRow}
    (hf : findKey c h p = some r) : r ∈ c ∧ r.hash = h ∧ r.path = p := by
  have hf' : List.find? (matchesKey h p) c = some r := hf
  exact ⟨List.mem_of_find?_eq_some hf',
         matchesKey_iff.mp (List.find?_some hf')⟩

theorem mem_upsert_cases {c : List FileRow} {d : Datei} {g : Nat}
    {r : FileRow} (hr : r ∈ upsert c d g) :
    r ∈ c ∨ (∃ r0 ∈ c, rowMatches d r0 = true ∧ r = updateRow r0 d g) ∨
      r = insertRow d g := by
  unfold upsert at hr
  by_cases hany : c.any (rowMatches d) = true
  · rw [if_pos hany] at hr
    obtain ⟨r0, hr0, heq⟩ := List.mem_map.mp hr
    by_cases h0 : rowMatches d r0 = true
    · exact Or.inr (Or.inl ⟨r0, hr0, h0, by rw [← heq, if_pos h0]⟩)
    · left
      rw [← heq, if_neg h0]
      exact hr0
  · rw [if_neg hany] at hr
    rcases List.mem_append.mp hr with h1 | h1
    · exact Or.inl h1
    · exact Or.inr (Or.inr (List.mem_singleton.mp h1))

theorem mem_upsert_untouched {c : List FileRow} {d : Datei} {g : Nat}
    {r : FileRow} (hr : r ∈ c) (hm : rowMatches d r = false) :
    r ∈ upsert c d g := by
  unfold upsert
  by_cases hany : c.any (rowMatches d) = true
  · rw [if_pos hany]
    refine List.mem_map.mpr ⟨r, hr, ?_⟩
    rw [if_neg (by simp [hm])]
  · rw [if_neg hany]
    exact List.mem_append_left _ hr

theorem scanUpserts_mem {c : List FileRow} {os : List Datei} {g : Nat}
    {r : FileRow} (hr : r ∈ scanUpserts c os g) :
    r ∈ c ∨ ∃ d ∈ os, r.hash = d.hash ∧ r.path = d.path ∧ r.last_seen = g := by
  induction os generalizing c with
  | nil => exact Or.inl hr
  | cons d os ih =>
    rcases ih (c := upsert c d g) hr with h1 | ⟨d', hd', hh⟩
    · rcases mem_upsert_cases h1 with h2 | ⟨r0, _, hm, rfl⟩ | rfl
      · exact Or.inl h2
      · right
        obtain ⟨e1, e2⟩ := matchesKey_iff.mp hm
        exact ⟨d, List.mem_cons_self d os, e1, e2, rfl⟩
      · right
        exact ⟨d, List.mem_cons_self d os, rfl, rfl, rfl⟩
    · right
      exact ⟨d', List.mem_cons_of_mem _ hd', hh⟩

theorem scanUpserts_mem_untouched {c : List FileRow} {os : List Datei}
    {g : Nat} {r : FileRow} (hr : r ∈ c)
    (hm : ∀ d ∈ os, rowMatches d r = false) : r ∈ scanUpserts c os g := by
  induction os generalizing c with
  | nil => exact hr
  | cons d os ih =>
    exact ih (mem_upsert_untouched hr (hm d (List.mem_cons_self d os)))
      (fun d' hd' => hm d' (List.mem_cons_of_mem _ hd'))

theorem scanUpserts_find {os : List Datei} {c : List FileRow} {g : Nat}
    (hos : (os.map dKey).Nodup) (h p : String) :
    findKey (scanUpserts c os g) h p =
      match os.find? (fun d => decide (d.hash = h ∧ d.path = p)) with
      | none => findKey c h p
      | some d => some (match findKey c h p with
                        | none => insertRow d g
                        | some r => updateRow r d g) := by
  induction os generalizing c with
  | nil => rfl
  | cons d os ih =>
    have hos' : (os.map dKey).Nodup ∧ dKey d ∉ os.map dKey := by
      rw [List.map_cons, List.nodup_cons] at hos
      exact ⟨hos.2, hos.1⟩
    by_cases hd : d.hash = h ∧ d.path = p
    · have hfind : os.find? (fun d' => decide (d'.hash = h ∧ d'.path = p))
          = none := by
        rw [List.find?_eq_none]
        intro d' hd' hc'
        apply hos'.2
        have hkk : dKey d' = dKey d := by
          obtain ⟨a1, a2⟩ := of_decide_eq_true hc'
          simp [dKey, a1, a2, hd.1, hd.2]
        rw [← hkk]
        exact List.mem_map.mpr ⟨d', hd', rfl⟩
      rw [show scanUpserts c (d :: os) g = scanUpserts (upsert c d g) os g
        from rfl]
      rw [ih hos'.1]
      have hcons : List.find? (fun d' => decide (d'.hash = h ∧ d'.path = p))
          (d :: os) = some d :=
        List.find?_cons_of_pos _ (decide_eq_true hd)
      rw [hcons, hfind]
      obtain ⟨h1, h2⟩ := hd
      subst h1
      subst h2
      exact upsert_find_self c d g
    · rw [show scanUpserts c (d :: os) g = scanUpserts (upsert c d g) os g
        from rfl]
      rw [ih hos'.1]
      have hcons : List.find? (fun d' => decide (d'.hash = h ∧ d'.path = p))
          (d :: os) = List.find? (fun d' => decide (d'.hash = h ∧ d'.path = p)) os :=
        List.find?_cons_of_neg _ (fun hc' => hd (of_decide_eq_true hc'))
      rw [hcons]
      rw [upsert_find_other c d g hd]

end Fswalk

namespace Fswalk

theorem findKey_reset (c : List FileRow) (h p : String) :
    findKey (resetNewFlags c) h p =
      (findKey c h p).map (fun r => { r with new := false }) :=
  findKey_map (fun r => { r with new := false }) (fun _ => rfl) c

/-- C2: upserting an observed (identity, path) pair under generation g
inserts a fresh row with is_new true and version stamp and last_seen equal
to g when the key is absent, and otherwise updates size, created, modified,
path length, name length and last_seen unconditionally, sets is_new false,
and bumps the version stamp to g exactly when the stored size or stored
modified differs from the observation, keeping the previous stamp
otherwise. -/
theorem claim_C2 (c : List FileRow) (d : Datei) (g : Nat) :
    (findKey c d.hash d.path = none →
      upsert c d g = c ++
        [{ hash := d.hash, path := d.path, size := d.size,
           created := d.created, modified := d.modified, plen := d.plen,
           flen := d.flen, timestamp := g, last_seen := g, new := true }]) ∧
    (∀ r, findKey c d.hash d.path = some r →
      ∃ r', findKey (upsert c d g) d.hash d.path = some r' ∧
        r'.size = d.size ∧ r'.created = d.created ∧
        r'.modified = d.modified ∧ r'.plen = d.plen ∧ r'.flen = d.flen ∧
        r'.last_seen = g ∧ r'.new = false ∧
        ((r.size ≠ d.size ∨ r.modified ≠ d.modified) → r'.timestamp = g) ∧
        (r.size = d.size → r.modified = d.modified →
          r'.timestamp = r.timestamp)) := by
  constructor
  · intro hnone
    unfold upsert
    have hany : ¬ c.any (rowMatches d) = true :=
      fun hx => (any_iff_findKey.mp hx) hnone
    rw [if_neg hany]
    rfl
  · intro r hr
    refine ⟨updateRow r d g, ?_, rfl, rfl, rfl, rfl, rfl, rfl, rfl, ?_, ?_⟩
    · rw [upsert_find_self, hr]
    · intro hdiff
      show (if r.size ≠ d.size ∨ r.modified ≠ d.modified then g
            else r.timestamp) = g
      rw [if_pos hdiff]
    · intro e1 e2
      show (if r.size ≠ d.size ∨ r.modified ≠ d.modified then g
            else r.timestamp) = r.timestamp
      rw [if_neg (by push_neg; exact ⟨e1, e2⟩)]

theorem claim_C2_witness :
    findKey ([] : List FileRow) "7" "/a" = none ∧
      upsert [] ⟨"7", "/a", 1, 2, 3, 4, 5⟩ 9 = [] ++
        [{ hash := "7", path := "/a", size := 1, created := 2, modified := 3,
           plen := 4, flen := 5, timestamp := 9, last_seen := 9,
           new := true }] :=
  ⟨rfl, (claim_C2 [] ⟨"7", "/a", 1, 2, 3, 4, 5⟩ 9).1 rfl⟩

/-- C3: the new flag is cleared on every existing row before any upsert of
the scan runs, and after the whole pipeline a surviving row carries
is_new = true exactly when its (identity, path) key was absent from the
catalog before the run. -/
theorem claim_C3 (cat : List FileRow) (os : List Datei) (g : Nat)
    (hcat : NodupKeys cat) (hos : (os.map dKey).Nodup) :
    (∀ r ∈ resetNewFlags cat, r.new = false) ∧
    (∀ final rep, runMain cat os g none = .ok final rep →
      ∀ r ∈ final, (r.new = true ↔ findKey cat r.hash r.path = none)) := by
  constructor
  · intro r hr
    obtain ⟨r0, _, rfl⟩ := List.mem_map.mp hr
    rfl
  · intro final rep hrun r hrf
    have hrun' : ScanOutcome.ok (scanFinal cat os g) (scanReport cat os g)
        = .ok final rep := hrun
    injection hrun' with h1 h2
    subst h1
    have hmemTx : r ∈ scanTx cat os g := (List.mem_filter.mp hrf).1
    have hfind : findKey (scanUpserts (resetNewFlags cat) os g)
        r.hash r.path = some r :=
      findKey_of_mem (NodupKeys_scanTx hcat) hmemTx
    rw [scanUpserts_find hos] at hfind
    cases hosf : os.find?
        (fun d => decide (d.hash = r.hash ∧ d.path = r.path)) with
    | none =>
      rw [hosf, findKey_reset] at hfind
      cases hcf : findKey cat r.hash r.path with
      | none =>
        rw [hcf] at hfind
        cases hfind
      | some r0 =>
        rw [hcf] at hfind
        injection hfind with h3
        constructor
        · intro hnew
          rw [← h3] at hnew
          cases hnew
        · intro hc
          exact Option.noConfusion hc
    | some d =>
      rw [hosf, findKey_reset] at hfind
      cases hcf : findKey cat r.hash r.path with
      | none =>
        rw [hcf] at hfind
        injection hfind with h3
        exact ⟨fun _ => rfl, fun _ => by rw [← h3]; rfl⟩
      | some r0 =>
        rw [hcf] at hfind
        injection hfind with h3
        constructor
        · intro hnew
          rw [← h3] at hnew
          cases hnew
        · intro hc
          exact Option.noConfusion hc

theorem claim_C3_witness :
    NodupKeys ([] : List FileRow) ∧
    (({ hash := "0", path := "/a", size := 0, created := 0, modified := 0,
        plen := 2, flen := 1, timestamp := 7, last_seen := 7,
        new := true } : FileRow).new = true ↔
      findKey ([] : List FileRow) "0" "/a" = none) :=
  ⟨by decide,
   (claim_C3 [] [⟨"0", "/a", 0, 0, 0, 2, 1⟩] 7 (by decide) (by decide)).2
     (scanFinal [] [⟨"0", "/a", 0, 0, 0, 2, 1⟩] 7)
     (scanReport [] [⟨"0", "/a", 0, 0, 0, 2, 1⟩] 7) rfl
     { hash := "0", path := "/a", size := 0, created := 0, modified := 0,
       plen := 2, flen := 1, timestamp := 7, last_seen := 7, new := true }
     (by decide)⟩

end Fswalk

namespace Fswalk

theorem length_sweep_partition (c : List FileRow) (g : Nat) :
    c.length = (sweepDelete c g).length + (queryDeleted c g).length := by
  induction c with
  | nil => rfl
  | cons r t ih =>
    unfold sweepDelete queryDeleted at *
    rw [List.filter_cons, List.filter_cons]
    by_cases hls : r.last_seen = g
    · rw [decide_eq_true hls, decide_eq_false (not_not_intro hls)]
      rw [if_pos rfl, if_neg Bool.false_ne_true]
      rw [List.length_cons, List.length_cons]
      omega
    · rw [decide_eq_false hls, decide_eq_true hls]
      rw [if_neg Bool.false_ne_true, if_pos rfl]
      rw [List.length_cons, List.length_cons]
      omega

/-- C1 counterexample: injecting a failure at the sweep DELETE does not
leave the catalog in its pre-scan state, because the Upsert transaction has
already committed (here the committed state has the new flag of the
pre-existing row cleared by the Reset). -/
theorem claim_C1_counterexample :
    runMain
      [{ hash := "a", path := "/x", size := 1, created := 2, modified := 3,
         plen := 4, flen := 5, timestamp := 1, last_seen := 1, new := true }]
      [] 2 (some .atSweep) ≠
    ScanOutcome.err
      [{ hash := "a", path := "/x", size := 1, created := 2, modified := 3,
         plen := 4, flen := 5, timestamp := 1, last_seen := 1,
         new := true }] := by decide

/-- C1 (amended): Reset and Upsert run in one all-or-nothing transaction,
so a failure of the reset or of any upsert leaves the catalog exactly in
its pre-scan state; the Sweep executes as a separate statement after that
transaction commits, so a sweep failure leaves the committed post-Upsert
(unswept) state, in which the stale rows not observed this generation are
still present with their new flag cleared. -/
theorem claim_C1 (cat : List FileRow) (os : List Datei) (g : Nat) (i : Nat) :
    runMain cat os g (some .atReset) = .err cat ∧
    runMain cat os g (some (.atUpsert i)) = .err cat ∧
    runMain cat os g (some .atSweep) = .err (scanTx cat os g) ∧
    (∀ r ∈ cat, (∀ d ∈ os, rowMatches d r = false) →
      ({ r with new := false } : FileRow) ∈ scanTx cat os g) := by
  refine ⟨rfl, rfl, rfl, ?_⟩
  intro r hr hm
  apply scanUpserts_mem_untouched
  · exact List.mem_map.mpr ⟨r, hr, rfl⟩
  · intro d hd
    exact hm d hd

theorem claim_C1_witness :
    ({ hash := "a", path := "/x", size := 1, created := 2, modified := 3,
       plen := 4, flen := 5, timestamp := 1, last_seen := 1,
       new := false } : FileRow) ∈
      scanTx
        [{ hash := "a", path := "/x", size := 1, created := 2, modified := 3,
           plen := 4, flen := 5, timestamp := 1, last_seen := 1,
           new := true }] [] 2 :=
  (claim_C1
    [{ hash := "a", path := "/x", size := 1, created := 2, modified := 3,
       plen := 4, flen := 5, timestamp := 1, last_seen := 1, new := true }]
    [] 2 0).2.2.2
    { hash := "a", path := "/x", size := 1, created := 2, modified := 3,
      plen := 4, flen := 5, timestamp := 1, last_seen := 1, new := true }
    (by decide) (by decide)

/-- C5 counterexample: the report main produces is not the report that the
post-sweep catalog state would yield; here the pipeline's report lists a
deleted row, while every query against the swept state returns no such
row.  So the reporter's queries cannot have run after the sweep. -/
theorem claim_C5_counterexample :
    scanReport
      [{ hash := "a", path := "/a", size := 0, created := 0, modified := 0,
         plen := 2, flen := 1, timestamp := 3, last_seen := 3,
         new := false }] [] 5 ≠
    write_to_file
      (scanFinal
        [{ hash := "a", path := "/a", size := 0, created := 0, modified := 0,
           plen := 2, flen := 1, timestamp := 3, last_seen := 3,
           new := false }] [] 5) 5 := by decide

/-- C5 (amended): the Diff Reporter's queries execute after the Upsert
transaction commits and before the sweep DELETE; they read the committed,
not yet swept state, and the deleted query captures exactly the rows the
subsequent sweep removes. -/
theorem claim_C5 (cat : List FileRow) (os : List Datei) (g : Nat) :
    runMain cat os g none =
      .ok (sweepDelete (scanTx cat os g) g)
          (write_to_file (scanTx cat os g) g) ∧
    (∀ r, r ∈ (write_to_file (scanTx cat os g) g).deletedRows ↔
      (r ∈ scanTx cat os g ∧ r ∉ sweepDelete (scanTx cat os g) g)) := by
  refine ⟨rfl, ?_⟩
  intro r
  constructor
  · intro hmem
    obtain ⟨h1, h2⟩ := List.mem_filter.mp hmem
    refine ⟨h1, fun hmem2 => ?_⟩
    exact (of_decide_eq_true h2) (of_decide_eq_true (List.mem_filter.mp hmem2).2)
  · rintro ⟨h1, h2⟩
    refine List.mem_filter.mpr ⟨h1, decide_eq_true ?_⟩
    intro heq
    exact h2 (List.mem_filter.mpr ⟨h1, decide_eq_true heq⟩)

theorem claim_C5_witness :
    runMain
      [{ hash := "a", path := "/a", size := 0, created := 0, modified := 0,
         plen := 2, flen := 1, timestamp := 3, last_seen := 3,
         new := false }] [] 5 none =
      .ok
        (sweepDelete
          (scanTx
            [{ hash := "a", path := "/a", size := 0, created := 0,
               modified := 0, plen := 2, flen := 1, timestamp := 3,
               last_seen := 3, new := false }] [] 5) 5)
        (write_to_file
          (scanTx
            [{ hash := "a", path := "/a", size := 0, created := 0,
               modified := 0, plen := 2, flen := 1, timestamp := 3,
               last_seen := 3, new := false }] [] 5) 5) :=
  (claim_C5
    [{ hash := "a", path := "/a", size := 0, created := 0, modified := 0,
       plen := 2, flen := 1, timestamp := 3, last_seen := 3,
       new := false }] [] 5).1

/-- C8: the deleted result set of the report and the sweep DELETE evaluate
the same predicate (last_seen differing from the generation) over the same
committed catalog state with no table write in between: every row of that
state lands in exactly one of the two, and the deleted result set is
exactly what the sweep removes. -/
theorem claim_C8 (cat : List FileRow) (os : List Datei) (g : Nat) :
    (scanReport cat os g).deletedRows = queryDeleted (scanTx cat os g) g ∧
    scanFinal cat os g = sweepDelete (scanTx cat os g) g ∧
    (∀ r ∈ scanTx cat os g,
      (r ∈ scanFinal cat os g ∧ r ∉ (scanReport cat os g).deletedRows) ∨
      (r ∉ scanFinal cat os g ∧ r ∈ (scanReport cat os g).deletedRows)) ∧
    (scanTx cat os g).length =
      (scanFinal cat os g).length +
        (scanReport cat os g).deletedRows.length := by
  refine ⟨rfl, rfl, ?_, length_sweep_partition _ g⟩
  intro r hr
  by_cases hls : r.last_seen = g
  · left
    constructor
    · exact List.mem_filter.mpr ⟨hr, decide_eq_true hls⟩
    · intro hmem
      exact (of_decide_eq_true (List.mem_filter.mp hmem).2) hls
  · right
    constructor
    · intro hmem
      exact hls (of_decide_eq_true (List.mem_filter.mp hmem).2)
    · exact List.mem_filter.mpr ⟨hr, decide_eq_true hls⟩

theorem claim_C8_witness :
    (({ hash := "a", path := "/a", size := 0, created := 0, modified := 0,
        plen := 2, flen := 1, timestamp := 3, last_seen := 3,
        new := false } : FileRow) ∈
        scanFinal
          [{ hash := "a", path := "/a", size := 0, created := 0,
             modified := 0, plen := 2, flen := 1, timestamp := 3,
             last_seen := 3, new := false }] [] 5 ∧
      ({ hash := "a", path := "/a", size := 0, created := 0, modified := 0,
         plen := 2, flen := 1, timestamp := 3, last_seen := 3,
         new := false } : FileRow) ∉
        (scanReport
          [{ hash := "a", path := "/a", size := 0, created := 0,
             modified := 0, plen := 2, flen := 1, timestamp := 3,
             last_seen := 3, new := false }] [] 5).deletedRows) ∨
    (({ hash := "a", path := "/a", size := 0, created := 0, modified := 0,
        plen := 2, flen := 1, timestamp := 3, last_seen := 3,
        new := false } : FileRow) ∉
        scanFinal
          [{ hash := "a", path := "/a", size := 0, created := 0,
             modified := 0, plen := 2, flen := 1, timestamp := 3,
             last_seen := 3, new := false }] [] 5 ∧
      ({ hash := "a", path := "/a", size := 0, created := 0, modified := 0,
         plen := 2, flen := 1, timestamp := 3, last_seen := 3,
         new := false } : FileRow) ∈
        (scanReport
          [{ hash := "a", path := "/a", size := 0, created := 0,
             modified := 0, plen := 2, flen := 1, timestamp := 3,
             last_seen := 3, new := false }] [] 5).deletedRows) :=
  (claim_C8
    [{ hash := "a", path := "/a", size := 0, created := 0, modified := 0,
       plen := 2, flen := 1, timestamp := 3, last_seen := 3,
       new := false }] [] 5).2.2.1
    { hash := "a", path := "/a", size := 0, created := 0, modified := 0,
      plen := 2, flen := 1, timestamp := 3, last_seen := 3, new := false }
    (by decide)

end Fswalk

namespace Fswalk

theorem findKey_upsert_ne_none {c : List FileRow} {d : Datei} {g : Nat} :
    findKey (upsert c d g) d.hash d.path ≠ none := by
  rw [upsert_find_self]
  exact fun h => Option.noConfusion h

theorem findKey_upsert_mono {c : List FileRow} {d' : Datei} {g : Nat}
    {h p : String} (hne : findKey c h p ≠ none) :
    findKey (upsert c d' g) h p ≠ none := by
  by_cases hk : d'.hash = h ∧ d'.path = p
  · obtain ⟨h1, h2⟩ := hk
    subst h1
    subst h2
    rw [upsert_find_self]
    exact fun h => Option.noConfusion h
  · rw [upsert_find_other c d' g hk]
    exact hne

theorem scanUpserts_key_mono {c : List FileRow} {os : List Datei} {g : Nat}
    {h p : String} (hne : findKey c h p ≠ none) :
    findKey (scanUpserts c os g) h p ≠ none := by
  induction os generalizing c with
  | nil => exact hne
  | cons d os ih => exact ih (findKey_upsert_mono hne)

theorem scanUpserts_key_present {c : List FileRow} {os : List Datei}
    {g : Nat} {d : Datei} (hd : d ∈ os) :
    findKey (scanUpserts c os g) d.hash d.path ≠ none := by
  induction os generalizing c with
  | nil => cases hd
  | cons d0 os ih =>
    rcases List.mem_cons.mp hd with rfl | hd'
    · show findKey (scanUpserts (upsert c d g) os g) d.hash d.path ≠ none
      exact scanUpserts_key_mono findKey_upsert_ne_none
    · exact ih hd'

/-- C7: an entry whose metadata cannot be read is not an error: main's
process_dir_entry returns Ok with a zero-valued marker (size, created and
modified all 0), the entry still flows into the observation stream and ends
up present in the catalog after the upsert phase; likewise nlw's enrichment
leaves a child with no name match in the bulk result untouched, carrying
the zero-valued default BasicInfo marker. -/
theorem claim_C7 (xxh3 : String → Nat) (e : WalkEntry)
    (walk : List (Except Unit WalkEntry))
    (map : List (String × Nlw.BasicInfo)) (entry : Nlw.NlwEntry) :
    (e.metadata = .error () →
      process_dir_entry xxh3 e = .ok
        { hash := toString (xxh3 e.pathStr), path := e.pathStr, size := 0,
          created := 0, modified := 0,
          plen := u64_as_i64 e.pathStr.utf8ByteSize,
          flen := u64_as_i64 e.fileName.utf8ByteSize }) ∧
    (e.isFile = true → Except.ok e ∈ walk →
      processDatei xxh3 e ∈ walkObservations xxh3 walk) ∧
    (∀ cat g, e.isFile = true → Except.ok e ∈ walk →
      findKey (scanTx cat (walkObservations xxh3 walk) g)
        (processDatei xxh3 e).hash (processDatei xxh3 e).path ≠ none) ∧
    (Nlw.lookupName map entry.fileName = none →
      Nlw.enrichChild map (.ok entry) = .ok entry) ∧
    Nlw.basicInfoDefault = ⟨0, 0, 0⟩ := by
  refine ⟨?_, ?_, ?_, ?_, rfl⟩
  · intro h
    unfold process_dir_entry processDatei
    rw [h]
    rfl
  · intro hfile hmem
    refine List.mem_filterMap.mpr ⟨Except.ok e, hmem, ?_⟩
    show (if e.isFile = true then
        match process_dir_entry xxh3 e with
        | Except.ok d => some d
        | Except.error _ => none
      else none) = some (processDatei xxh3 e)
    rw [if_pos hfile]
    rfl
  · intro cat g hfile hmem
    apply scanUpserts_key_present
    refine List.mem_filterMap.mpr ⟨Except.ok e, hmem, ?_⟩
    show (if e.isFile = true then
        match process_dir_entry xxh3 e with
        | Except.ok d => some d
        | Except.error _ => none
      else none) = some (processDatei xxh3 e)
    rw [if_pos hfile]
    rfl
  · intro h
    show (match Nlw.lookupName map entry.fileName with
        | some info => Except.ok { entry with clientState := info }
        | none => Except.ok entry) = Except.ok entry
    rw [h]

theorem claim_C7_witness :
    process_dir_entry (fun _ => 0)
      ⟨"/a", "a", true, Except.error ()⟩ = .ok
        { hash := toString ((fun _ : String => (0 : Nat)) "/a"),
          path := "/a", size := 0, created := 0, modified := 0,
          plen := u64_as_i64 ("/a".utf8ByteSize),
          flen := u64_as_i64 ("a".utf8ByteSize) } :=
  (claim_C7 (fun _ => 0) ⟨"/a", "a", true, Except.error ()⟩ [] []
    ⟨"a", true, ⟨0, 0, 0⟩⟩).1 rfl

/-- C9: after a scan over a fresh generation, every row of the final
catalog state traces back to a walk entry that is a regular file (directory
and other non-file entries are skipped by the file_type test before the
upsert, and errored walk items are ignored), with the row's path and hash
derived from that entry's path. -/
theorem claim_C9 (xxh3 : String → Nat) (cat : List FileRow)
    (walk : List (Except Unit WalkEntry)) (g : Nat)
    (hls : ∀ r ∈ cat, r.last_seen ≠ g) :
    ∀ final rep,
      runMain cat (walkObservations xxh3 walk) g none = .ok final rep →
      ∀ r ∈ final, ∃ e : WalkEntry, Except.ok e ∈ walk ∧ e.isFile = true ∧
        r.path = e.pathStr ∧ r.hash = toString (xxh3 e.pathStr) := by
  intro final rep hrun r hrf
  have hrun' : ScanOutcome.ok (scanFinal cat (walkObservations xxh3 walk) g)
      (scanReport cat (walkObservations xxh3 walk) g) = .ok final rep := hrun
  injection hrun' with h1 h2
  subst h1
  have hmem := List.mem_filter.mp hrf
  have hlsg : r.last_seen = g := of_decide_eq_true hmem.2
  rcases scanUpserts_mem hmem.1 with hbase | ⟨d, hd, e1, e2, _⟩
  · exfalso
    obtain ⟨r0, hr0, rfl⟩ := List.mem_map.mp hbase
    exact hls r0 hr0 hlsg
  · obtain ⟨item, hitem, hsome⟩ := List.mem_filterMap.mp hd
    cases item with
    | error u =>
      exact Option.noConfusion (show (none : Option Datei) = some d from hsome)
    | ok e =>
      have hsome2 : (if e.isFile = true then
          match process_dir_entry xxh3 e with
          | Except.ok d => some d
          | Except.error _ => none
        else none) = some d := hsome
      by_cases hfile : e.isFile
      · rw [if_pos hfile] at hsome2
        have hsome' : some (processDatei xxh3 e) = some d := hsome2
        injection hsome' with hval
        refine ⟨e, hitem, hfile, ?_, ?_⟩
        · rw [e2, ← hval]
          rfl
        · rw [e1, ← hval]
          rfl
      · rw [if_neg hfile] at hsome2
        exact Option.noConfusion hsome2

theorem claim_C9_witness :
    (∀ r ∈ ([] : List FileRow), r.last_seen ≠ 1) ∧
    (∃ e : WalkEntry,
      (Except.ok e : Except Unit WalkEntry) ∈
        ([Except.ok ⟨"/a", "a", true, Except.error ()⟩] :
          List (Except Unit WalkEntry)) ∧
      e.isFile = true ∧
      ({ hash := "0", path := "/a", size := 0, created := 0, modified := 0,
         plen := 2, flen := 1, timestamp := 1, last_seen := 1,
         new := true } : FileRow).path = e.pathStr ∧
      ({ hash := "0", path := "/a", size := 0, created := 0, modified := 0,
         plen := 2, flen := 1, timestamp := 1, last_seen := 1,
         new := true } : FileRow).hash = toString ((fun _ : String => (0 : Nat)) e.pathStr)) :=
  ⟨by decide,
   claim_C9 (fun _ => 0) []
     [Except.ok ⟨"/a", "a", true, Except.error ()⟩] 1 (by decide)
     (scanFinal [] (walkObservations (fun _ => 0)
       [Except.ok ⟨"/a", "a", true, Except.error ()⟩]) 1)
     (scanReport [] (walkObservations (fun _ => 0)
       [Except.ok ⟨"/a", "a", true, Except.error ()⟩]) 1) rfl
     { hash := "0", path := "/a", size := 0, created := 0, modified := 0,
       plen := 2, flen := 1, timestamp := 1, last_seen := 1, new := true }
     (by decide)⟩

end Fswalk

namespace Fswalk

theorem find?_dKey_self {os : List Datei} (hos : (os.map dKey).Nodup)
    {d : Datei} (hd : d ∈ os) :
    os.find? (fun x => decide (x.hash = d.hash ∧ x.path = d.path))
      = some d := by
  induction os with
  | nil => cases hd
  | cons d0 os ih =>
    have hos' : (os.map dKey).Nodup ∧ dKey d0 ∉ os.map dKey := by
      rw [List.map_cons, List.nodup_cons] at hos
      exact ⟨hos.2, hos.1⟩
    by_cases h0 : d0.hash = d.hash ∧ d0.path = d.path
    · have hcons : List.find?
          (fun x => decide (x.hash = d.hash ∧ x.path = d.path)) (d0 :: os)
          = some d0 :=
        List.find?_cons_of_pos _ (decide_eq_true h0)
      rw [hcons]
      rcases List.mem_cons.mp hd with rfl | hd'
      · rfl
      · exfalso
        apply hos'.2
        have hkk : dKey d0 = dKey d := by simp [dKey, h0.1, h0.2]
        rw [hkk]
        exact List.mem_map.mpr ⟨d, hd', rfl⟩
    · have hcons : List.find?
          (fun x => decide (x.hash = d.hash ∧ x.path = d.path)) (d0 :: os)
          = List.find?
            (fun x => decide (x.hash = d.hash ∧ x.path = d.path)) os :=
        List.find?_cons_of_neg _ (fun hc => h0 (of_decide_eq_true hc))
      rw [hcons]
      rcases List.mem_cons.mp hd with rfl | hd'
      · exact absurd ⟨rfl, rfl⟩ h0
      · exact ih hos'.1 hd'

theorem firstScan_found (g1 : Nat) {cat : List FileRow} {os : List Datei}
    (hcat : NodupKeys cat) (hos : (os.map dKey).Nodup) {d : Datei}
    (hd : d ∈ os) :
    ∃ r, findKey (scanFinal cat os g1) d.hash d.path = some r ∧
      r.size = d.size ∧ r.modified = d.modified ∧
      (r.timestamp = g1 ∨ ∃ r0 ∈ cat, r.timestamp = r0.timestamp) := by
  have hfindTx := scanUpserts_find (c := resetNewFlags cat) (g := g1) hos
    d.hash d.path
  rw [find?_dKey_self hos hd, findKey_reset] at hfindTx
  cases hcf : findKey cat d.hash d.path with
  | none =>
    rw [hcf] at hfindTx
    refine ⟨insertRow d g1, ?_, rfl, rfl, Or.inl rfl⟩
    have hmem : insertRow d g1 ∈ scanTx cat os g1 :=
      (mem_of_findKey hfindTx).1
    have hmem2 : insertRow d g1 ∈ scanFinal cat os g1 :=
      List.mem_filter.mpr ⟨hmem, decide_eq_true rfl⟩
    exact findKey_of_mem (NodupKeys_sweepDelete g1 (NodupKeys_scanTx hcat))
      hmem2
  | some r0 =>
    rw [hcf] at hfindTx
    refine ⟨updateRow { r0 with new := false } d g1, ?_, rfl, rfl, ?_⟩
    · have hmem : updateRow { r0 with new := false } d g1
          ∈ scanTx cat os g1 := (mem_of_findKey hfindTx).1
      have hmem2 : updateRow { r0 with new := false } d g1
          ∈ scanFinal cat os g1 :=
        List.mem_filter.mpr ⟨hmem, decide_eq_true rfl⟩
      obtain ⟨_, hh, hp⟩ := mem_of_findKey hcf
      rw [← hh, ← hp]
      exact findKey_of_mem
        (NodupKeys_sweepDelete g1 (NodupKeys_scanTx hcat)) hmem2
    · by_cases hdiff : r0.size ≠ d.size ∨ r0.modified ≠ d.modified
      · left
        show (if r0.size ≠ d.size ∨ r0.modified ≠ d.modified then g1
              else r0.timestamp) = g1
        rw [if_pos hdiff]
      · right
        refine ⟨r0, (mem_of_findKey hcf).1, ?_⟩
        show (if r0.size ≠ d.size ∨ r0.modified ≠ d.modified then g1
              else r0.timestamp) = r0.timestamp
        rw [if_neg hdiff]

theorem secondScanNoChange {c1 : List FileRow} {os : List Datei} {g2 : Nat}
    (hc1 : NodupKeys c1) (hos : (os.map dKey).Nodup)
    (hcover : ∀ r ∈ c1, ∃ d ∈ os, d.hash = r.hash ∧ d.path = r.path)
    (hpresent : ∀ d ∈ os, findKey c1 d.hash d.path ≠ none)
    (hvals : ∀ d ∈ os, ∀ r0, findKey c1 d.hash d.path = some r0 →
      r0.size = d.size ∧ r0.modified = d.modified ∧ r0.timestamp ≠ g2) :
    ∀ r ∈ scanTx c1 os g2,
      r.new = false ∧ r.timestamp ≠ g2 ∧ r.last_seen = g2 := by
  intro r hr
  have hfind : findKey (scanUpserts (resetNewFlags c1) os g2) r.hash r.path
      = some r :=
    findKey_of_mem (NodupKeys_scanTx hc1) hr
  rw [scanUpserts_find hos] at hfind
  cases hosf : os.find?
      (fun d => decide (d.hash = r.hash ∧ d.path = r.path)) with
  | none =>
    exfalso
    rw [hosf, findKey_reset] at hfind
    cases hcf : findKey c1 r.hash r.path with
    | none =>
      rw [hcf] at hfind
      exact Option.noConfusion hfind
    | some r0 =>
      rw [hcf] at hfind
      obtain ⟨hr0mem, hh, hp⟩ := mem_of_findKey hcf
      obtain ⟨d, hdos, k1, k2⟩ := hcover r0 hr0mem
      rw [List.find?_eq_none] at hosf
      exact hosf d hdos (decide_eq_true ⟨by rw [k1, hh], by rw [k2, hp]⟩)
  | some d =>
    rw [hosf, findKey_reset] at hfind
    have hdos : d ∈ os := List.mem_of_find?_eq_some hosf
    have hdk' := List.find?_some hosf
    have hdk : d.hash = r.hash ∧ d.path = r.path := of_decide_eq_true hdk'
    cases hcf : findKey c1 r.hash r.path with
    | none =>
      exfalso
      apply hpresent d hdos
      rw [hdk.1, hdk.2]
      exact hcf
    | some r0 =>
      rw [hcf] at hfind
      injection hfind with hEq
      have hv := hvals d hdos r0 (by rw [hdk.1, hdk.2]; exact hcf)
      subst hEq
      refine ⟨rfl, ?_, rfl⟩
      show (if r0.size ≠ d.size ∨ r0.modified ≠ d.modified then g2
            else r0.timestamp) ≠ g2
      rw [if_neg (by push_neg; exact ⟨hv.1, hv.2.1⟩)]
      exact hv.2.2

/-- C4: two pipeline runs over the same observation stream, with distinct
generations that do not collide with any stored stamp, classify nothing on
the second run: the second report's new, modified and deleted result sets
are all empty and the second sweep deletes no row. -/
theorem claim_C4 (cat : List FileRow) (os : List Datei) (g1 g2 : Nat)
    (hcat : NodupKeys cat) (hos : (os.map dKey).Nodup) (h12 : g1 ≠ g2)
    (hts : ∀ r ∈ cat, r.timestamp ≠ g2)
    (hls : ∀ r ∈ cat, r.last_seen ≠ g1) :
    ∀ c1 rep1, runMain cat os g1 none = .ok c1 rep1 →
    ∀ c2 rep2, runMain c1 os g2 none = .ok c2 rep2 →
      rep2.newRows = [] ∧ rep2.modifiedRows = [] ∧
      rep2.deletedRows = [] ∧ c2 = scanTx c1 os g2 := by
  intro c1 rep1 hrun1 c2 rep2 hrun2
  have h1' : ScanOutcome.ok (scanFinal cat os g1) (scanReport cat os g1)
      = .ok c1 rep1 := hrun1
  injection h1' with hc1eq hrep1eq
  subst hc1eq
  have h2' : ScanOutcome.ok (scanFinal (scanFinal cat os g1) os g2)
      (scanReport (scanFinal cat os g1) os g2) = .ok c2 rep2 := hrun2
  injection h2' with hc2eq hrep2eq
  subst hc2eq
  subst hrep2eq
  have hc1 : NodupKeys (scanFinal cat os g1) :=
    NodupKeys_sweepDelete g1 (NodupKeys_scanTx hcat)
  have hcover : ∀ r ∈ scanFinal cat os g1,
      ∃ d ∈ os, d.hash = r.hash ∧ d.path = r.path := by
    intro r hrf
    have hmem := List.mem_filter.mp hrf
    have hlsg : r.last_seen = g1 := of_decide_eq_true hmem.2
    rcases scanUpserts_mem hmem.1 with hbase | ⟨d, hdos, e1, e2, _⟩
    · exfalso
      obtain ⟨r0, hr0, rfl⟩ := List.mem_map.mp hbase
      exact hls r0 hr0 hlsg
    · exact ⟨d, hdos, e1.symm, e2.symm⟩
  have hpresent : ∀ d ∈ os,
      findKey (scanFinal cat os g1) d.hash d.path ≠ none := by
    intro d hdos
    obtain ⟨r, hfr, _⟩ := firstScan_found g1 hcat hos hdos
    rw [hfr]
    exact fun hx => Option.noConfusion hx
  have hvals : ∀ d ∈ os, ∀ r0,
      findKey (scanFinal cat os g1) d.hash d.path = some r0 →
      r0.size = d.size ∧ r0.modified = d.modified ∧ r0.timestamp ≠ g2 := by
    intro d hdos r0 hf0
    obtain ⟨r, hfr, hs, hm, hts'⟩ := firstScan_found g1 hcat hos hdos
    rw [hfr] at hf0
    injection hf0 with hre
    subst hre
    refine ⟨hs, hm, ?_⟩
    rcases hts' with hx | ⟨rc, hrc, he⟩
    · rw [hx]
      exact h12
    · rw [he]
      exact hts rc hrc
  have hmain := secondScanNoChange hc1 hos hcover hpresent hvals
  refine ⟨?_, ?_, ?_, ?_⟩
  · show List.filter (fun r => r.new)
      (scanTx (scanFinal cat os g1) os g2) = []
    rw [List.filter_eq_nil_iff]
    intro r hr
    rw [(hmain r hr).1]
    exact Bool.false_ne_true
  · show List.filter (fun r => decide (r.timestamp = g2 ∧ r.new = false))
      (scanTx (scanFinal cat os g1) os g2) = []
    rw [List.filter_eq_nil_iff]
    intro r hr hdec
    exact (hmain r hr).2.1 (of_decide_eq_true hdec).1
  · show List.filter (fun r => decide (r.last_seen ≠ g2))
      (scanTx (scanFinal cat os g1) os g2) = []
    rw [List.filter_eq_nil_iff]
    intro r hr hdec
    exact (of_decide_eq_true hdec) (hmain r hr).2.2
  · show List.filter (fun r => decide (r.last_seen = g2))
      (scanTx (scanFinal cat os g1) os g2)
      = scanTx (scanFinal cat os g1) os g2
    rw [List.filter_eq_self]
    intro r hr
    exact decide_eq_true (hmain r hr).2.2

theorem claim_C4_witness :
    (scanReport (scanFinal [] [⟨"a", "/a", 1, 2, 3, 4, 5⟩] 1)
      [⟨"a", "/a", 1, 2, 3, 4, 5⟩] 2).newRows = [] ∧
    (scanReport (scanFinal [] [⟨"a", "/a", 1, 2, 3, 4, 5⟩] 1)
      [⟨"a", "/a", 1, 2, 3, 4, 5⟩] 2).modifiedRows = [] ∧
    (scanReport (scanFinal [] [⟨"a", "/a", 1, 2, 3, 4, 5⟩] 1)
      [⟨"a", "/a", 1, 2, 3, 4, 5⟩] 2).deletedRows = [] ∧
    scanFinal (scanFinal [] [⟨"a", "/a", 1, 2, 3, 4, 5⟩] 1)
      [⟨"a", "/a", 1, 2, 3, 4, 5⟩] 2
      = scanTx (scanFinal [] [⟨"a", "/a", 1, 2, 3, 4, 5⟩] 1)
          [⟨"a", "/a", 1, 2, 3, 4, 5⟩] 2 :=
  claim_C4 [] [⟨"a", "/a", 1, 2, 3, 4, 5⟩] 1 2 (by decide) (by decide)
    (by decide) (by decide) (by decide) _ _ rfl _ _ rfl

end Fswalk

namespace Fswalk

theorem shiftLeft32_or_eq_add {a b : Nat} (hb : b < 4294967296) :
    a <<< 32 ||| b = a * 4294967296 + b := by
  apply Nat.eq_of_testBit_eq
  intro i
  rw [Nat.testBit_lor, Nat.testBit_shiftLeft]
  rcases Nat.lt_or_ge i 32 with hik | hik
  · have h1 : ¬ (32 ≤ i) := Nat.not_le.mpr hik
    rw [decide_eq_false h1, Bool.false_and, Bool.false_or]
    have h2 := Nat.testBit_mod_two_pow (a * 4294967296 + b) 32 i
    rw [show (2:Nat) ^ 32 = 4294967296 from rfl,
      show (a * 4294967296 + b) % 4294967296 = b from by omega,
      decide_eq_true hik, Bool.true_and] at h2
    exact h2
  · obtain ⟨j, rfl⟩ : ∃ j, i = 32 + j := ⟨i - 32, by omega⟩
    have h1 : (32:Nat) ≤ 32 + j := by omega
    rw [decide_eq_true h1, Bool.true_and, Nat.add_sub_cancel_left]
    have hb' : b.testBit (32 + j) = false := by
      apply Nat.testBit_lt_two_pow
      calc b < 4294967296 := hb
        _ = 2 ^ 32 := rfl
        _ ≤ 2 ^ (32 + j) := Nat.pow_le_pow_right (by omega) (by omega)
    rw [hb', Bool.or_false]
    have h3 : (a * 4294967296 + b) >>> 32 = a := by
      rw [Nat.shiftRight_eq_div_pow, show (2:Nat) ^ 32 = 4294967296 from rfl,
        Nat.mul_comm a, Nat.mul_add_div (by omega), Nat.div_eq_of_lt hb,
        Nat.add_zero]
    calc a.testBit j
        = ((a * 4294967296 + b) >>> 32).testBit j := by rw [h3]
      _ = (a * 4294967296 + b).testBit (32 + j) := by
          rw [Nat.testBit_shiftRight]

/-- C6 counterexample: the metadata the nlw.rs bulk source returns carries
the raw native FILETIME tick count, not its UNIX-epoch conversion.  For
the tick value one second after the UNIX epoch, the returned created field
equals the tick count itself, while the epoch conversion of that tick
value (as batch.rs performs it) is one second of nanoseconds; the two
differ, so a native tick value is visible in the returned metadata. -/
theorem claim_C6_counterexample :
    (Nlw.infoOfFindData
      ⟨"f", 0, 0, 27111902, 3587643008, 0, 0⟩).created
        = 116444736010000000 ∧
    Batch.filetimeNanos 116444736010000000 = some 1000000000 ∧
    (116444736010000000 : Nat) ≠ 1000000000 := by
  refine ⟨?_, by decide, by decide⟩
  show Nlw.combineDwords 27111902 3587643008 = 116444736010000000
  unfold Nlw.combineDwords
  rw [shiftLeft32_or_eq_add (by decide)]

/-- C6 (amended): only the batch.rs bulk source converts timestamps inside
the component: its filetime turns a tick count at or after the UNIX epoch
into exactly (ticks - epochTicks) * 100 nanoseconds since the UNIX epoch.
The nlw.rs variant stores the two raw FILETIME dwords recombined into the
unconverted native tick count in the BasicInfo it returns, and the
tick-to-epoch conversion exists only in its test-module consumer
(filetime_to_unix). -/
theorem claim_C6 (t hi lo : Nat) (d : Nlw.FindDataW) :
    (Batch.DELTA * Batch.TICKS ≤ t →
      Batch.filetimeNanos t = some ((t - Batch.DELTA * Batch.TICKS) * 100)) ∧
    (lo < 4294967296 → Nlw.combineDwords hi lo = hi * 4294967296 + lo) ∧
    ((Nlw.infoOfFindData d).created
        = Nlw.combineDwords d.createdHigh d.createdLow ∧
      (Nlw.infoOfFindData d).modified
        = Nlw.combineDwords d.modifiedHigh d.modifiedLow) ∧
    (116444736000000000 ≤ t →
      Nlw.filetime_to_unix t = some ((t - 116444736000000000) * 100)) := by
  refine ⟨?_, ?_, ⟨rfl, rfl⟩, ?_⟩
  · intro h
    unfold Batch.filetimeNanos Batch.filetime Batch.TICKS Batch.DELTA
    unfold Batch.DELTA Batch.TICKS at h
    rw [if_neg (by omega)]
    rw [Option.map_some']
    exact congrArg some (by omega)
  · intro hlo
    unfold Nlw.combineDwords
    exact shiftLeft32_or_eq_add hlo
  · intro h
    unfold Nlw.filetime_to_unix
    rw [if_neg (by omega)]

theorem claim_C6_witness :
    (Batch.DELTA * Batch.TICKS ≤ 116444736010000000 ∧
      Batch.filetimeNanos 116444736010000000 =
        some ((116444736010000000 - Batch.DELTA * Batch.TICKS) * 100)) ∧
    ((3587643008 : Nat) < 4294967296 ∧
      Nlw.combineDwords 27111902 3587643008
        = 27111902 * 4294967296 + 3587643008) :=
  ⟨⟨by decide,
    (claim_C6 116444736010000000 27111902 3587643008
      ⟨"f", 0, 0, 0, 0, 0, 0⟩).1 (by decide)⟩,
   ⟨by decide,
    (claim_C6 116444736010000000 27111902 3587643008
      ⟨"f", 0, 0, 0, 0, 0, 0⟩).2.1 (by decide)⟩⟩

/-- C10: on every tick count at or after the UNIX epoch (at least
11644473600 * 10^7 ticks) the batch.rs filetime conversion succeeds and
returns exactly the pair (ticks / 10^7 - 11644473600 seconds,
(ticks mod 10^7) * 100 nanoseconds), whose total equals
(ticks - 11644473600 * 10^7) * 100 nanoseconds in exact unsigned
arithmetic, with the nanosecond component strictly below one second; on
any smaller tick count the unguarded u64 subtraction underflows and the
conversion has no value, which is why the precondition is required. -/
theorem claim_C10 (t : Nat) :
    (11644473600 * 10000000 ≤ t →
      Batch.filetime t
          = some (t / 10000000 - 11644473600, t % 10000000 * 100) ∧
        (t / 10000000 - 11644473600) * 1000000000 + t % 10000000 * 100
          = (t - 11644473600 * 10000000) * 100 ∧
        t % 10000000 * 100 < 1000000000) ∧
    (t < 11644473600 * 10000000 → Batch.filetime t = none) := by
  constructor
  · intro h
    refine ⟨?_, by omega, by omega⟩
    unfold Batch.filetime Batch.TICKS Batch.DELTA
    rw [if_neg (by omega)]
  · intro h
    unfold Batch.filetime Batch.TICKS Batch.DELTA
    rw [if_pos (by omega)]

theorem claim_C10_witness :
    11644473600 * 10000000 ≤ 116444736000000000 ∧
      Batch.filetime 116444736000000000
        = some (116444736000000000 / 10000000 - 11644473600,
            116444736000000000 % 10000000 * 100) :=
  ⟨by decide, ((claim_C10 116444736000000000).1 (by decide)).1⟩

end Fswalk
